import Mathlib

/-!
Verification of the LDA pipeline in `ML.py`: train/test splitting, LDA
fitting (class statistics, discriminant basis from a pluggable generalized
eigen-solver), projection, nearest-centroid classification, accuracy
evaluation and the fixed-precision report line.  The script delegates the
numeric work to an external library, so those operations are modelled from
the specification, with the eigen-decomposition kept as an abstract
linear-algebra capability (a `solver` parameter), exactly as the spec's
design notes prescribe.
-/

/-- A feature vector: a fixed-dimension list of exact rationals. -/
abbrev Vec := List ℚ

/-- A record of the dataset: a feature vector and a class label.  Labels are
drawn from a finite set carried by `ℕ`, whose order is the fixed total order
used for tie-breaking. -/
structure Record where
  features : Vec
  label : ℕ
deriving DecidableEq, Repr

/-- A dataset: an ordered sequence of records. -/
abbrev Dataset := List Record

/-- Modelled from the spec: the pseudo-random key stream seeded by `seed`
that drives DataSplitter's permutation (the concrete generator is
implementation-chosen; a linear congruential generator here). -/
def lcgKey (seed i : ℕ) : ℕ := (1103515245 * (seed + i) + 12345) % 2147483648

/-- Modelled from the spec: the pseudo-random permutation of the record
indices `0, ..., N-1` seeded by `seed` (DataSplitter, step 1). -/
def permuteIndices (seed N : ℕ) : List ℕ :=
  (List.range N).mergeSort (fun i j => lcgKey seed i ≤ lcgKey seed j)

/-- The target size of the test side: `round(test_fraction * N)`. -/
def testCount (f : ℚ) (N : ℕ) : ℕ := (round (f * (N : ℚ))).toNat

/-- Modelled from the spec: `train_test_split` (the sklearn call at
src/ML.py:45, whose body is outside the repository).  The first
`round(test_fraction * N)` permuted indices become TestIndices, the
remainder TrainIndices.  Returns `(TrainIndices, TestIndices)`. -/
def train_test_split (N : ℕ) (f : ℚ) (seed : ℕ) : List ℕ × List ℕ :=
  ((permuteIndices seed N).drop (testCount f N),
   (permuteIndices seed N).take (testCount f N))

lemma permuteIndices_perm (seed N : ℕ) :
    (permuteIndices seed N).Perm (List.range N) :=
  List.mergeSort_perm _ _

lemma permuteIndices_nodup (seed N : ℕ) : (permuteIndices seed N).Nodup :=
  (permuteIndices_perm seed N).symm.nodup (List.nodup_range N)

lemma permuteIndices_length (seed N : ℕ) : (permuteIndices seed N).length = N := by
  rw [permuteIndices, List.length_mergeSort, List.length_range]

lemma testCount_le (f : ℚ) (N : ℕ) (hf1 : f < 1) : testCount f N ≤ N := by
  have h1 : f * (N : ℚ) ≤ (N : ℚ) := by
    calc f * (N : ℚ) ≤ 1 * (N : ℚ) :=
          mul_le_mul_of_nonneg_right hf1.le (Nat.cast_nonneg N)
    _ = (N : ℚ) := one_mul _
  have h2 : round (f * (N : ℚ)) ≤ (N : ℤ) := by
    rw [round_eq]
    have hlt : f * (N : ℚ) + 1 / 2 < (((N : ℤ) + 1 : ℤ) : ℚ) := by
      push_cast
      linarith
    have := Int.floor_lt.mpr hlt
    omega
  exact Int.toNat_le.mpr h2

/-- Claim C1: for every non-empty dataset size and valid test_fraction and
seed, the split partitions the record indices: an index is in TrainIndices
or TestIndices exactly when it is a valid index, and no index is in both. -/
theorem split_partitions (N : ℕ) (f : ℚ) (seed : ℕ) (hN : 0 < N)
    (hf0 : 0 < f) (hf1 : f < 1) :
    (∀ i, (i ∈ (train_test_split N f seed).1 ∨ i ∈ (train_test_split N f seed).2)
        ↔ i < N) ∧
    (∀ i, ¬ (i ∈ (train_test_split N f seed).1 ∧ i ∈ (train_test_split N f seed).2)) := by
  constructor
  · intro i
    have hsplit :
        (permuteIndices seed N).take (testCount f N) ++
          (permuteIndices seed N).drop (testCount f N) = permuteIndices seed N :=
      List.take_append_drop _ _
    have hmem : i ∈ permuteIndices seed N ↔ i < N := by
      rw [(permuteIndices_perm seed N).mem_iff, List.mem_range]
    constructor
    · intro h
      rcases h with h | h
      · exact hmem.mp ((List.mem_of_mem_drop h))
      · exact hmem.mp ((List.take_sublist _ _).mem h)
    · intro h
      have : i ∈ permuteIndices seed N := hmem.mpr h
      rw [← hsplit, List.mem_append] at this
      exact this.symm.imp id id |>.symm.elim (fun h => Or.inr h) (fun h => Or.inl h)
  · intro i ⟨htr, hte⟩
    exact List.disjoint_take_drop (permuteIndices_nodup seed N) le_rfl hte htr

/-- Witness for C1 at a concrete input: N = 4, test_fraction = 1/2, seed = 0. -/
theorem split_partitions_witness :
    (0 : ℕ) < 4 ∧ (0 : ℚ) < 1/2 ∧ (1/2 : ℚ) < 1 ∧
    ((∀ i, (i ∈ (train_test_split 4 (1/2) 0).1 ∨ i ∈ (train_test_split 4 (1/2) 0).2)
        ↔ i < 4) ∧
     (∀ i, ¬ (i ∈ (train_test_split 4 (1/2) 0).1 ∧ i ∈ (train_test_split 4 (1/2) 0).2))) :=
  ⟨by norm_num, by norm_num, by norm_num,
   split_partitions 4 (1/2) 0 (by norm_num) (by norm_num) (by norm_num)⟩

/-- Claim C2: two runs of the split on identical (dataset, seed,
test_fraction) produce identical (TrainIndices, TestIndices): the split is a
deterministic function of its inputs. -/
theorem split_reproducible (N : ℕ) (f : ℚ) (seed : ℕ)
    (run1 run2 : List ℕ × List ℕ)
    (h1 : run1 = train_test_split N f seed)
    (h2 : run2 = train_test_split N f seed) :
    run1 = run2 :=
  h1.trans h2.symm

/-- Witness for C2 at a concrete input: N = 4, test_fraction = 3/10, seed = 7. -/
theorem split_reproducible_witness :
    train_test_split 4 (3/10) 7 = train_test_split 4 (3/10) 7 :=
  split_reproducible 4 (3/10) 7 _ _ rfl rfl

/-- Claim C6: for every dataset size N and test_fraction in (0,1), the split
assigns exactly `round(test_fraction * N)` indices — the first that many of
the seeded pseudo-random permutation — to TestIndices and the remaining
`N - round(test_fraction * N)` to TrainIndices. -/
theorem split_sizes (N : ℕ) (f : ℚ) (seed : ℕ) (hf0 : 0 < f) (hf1 : f < 1) :
    (train_test_split N f seed).2 = (permuteIndices seed N).take (testCount f N) ∧
    (train_test_split N f seed).2.length = testCount f N ∧
    (train_test_split N f seed).1.length = N - testCount f N := by
  refine ⟨rfl, ?_, ?_⟩
  · rw [train_test_split]
    simp only [List.length_take, permuteIndices_length]
    exact Nat.min_eq_left (testCount_le f N hf1)
  · rw [train_test_split]
    simp only [List.length_drop, permuteIndices_length]

/-- Witness for C6 at a concrete input: N = 10, test_fraction = 3/10, seed = 0. -/
theorem split_sizes_witness :
    (0 : ℚ) < 3/10 ∧ (3/10 : ℚ) < 1 ∧
    ((train_test_split 10 (3/10) 0).2 = (permuteIndices 0 10).take (testCount (3/10) 10) ∧
     (train_test_split 10 (3/10) 0).2.length = testCount (3/10) 10 ∧
     (train_test_split 10 (3/10) 0).1.length = 10 - testCount (3/10) 10) :=
  ⟨by norm_num, by norm_num, split_sizes 10 (3/10) 0 (by norm_num) (by norm_num)⟩

/-- Pointwise vector addition. -/
def vadd (x y : Vec) : Vec := List.zipWith (· + ·) x y

/-- Pointwise vector subtraction. -/
def vsub (x y : Vec) : Vec := List.zipWith (· - ·) x y

/-- Scalar multiple of a vector. -/
def smul (a : ℚ) (x : Vec) : Vec := x.map (fun xi => a * xi)

/-- Dot product of two vectors. -/
def dot (x y : Vec) : ℚ := (List.zipWith (· * ·) x y).sum

/-- Sum of a list of D-dimensional vectors. -/
def vsum (D : ℕ) (vs : List Vec) : Vec := vs.foldl vadd (List.replicate D 0)

/-- Mean of a list of D-dimensional vectors. -/
def vmean (D : ℕ) (vs : List Vec) : Vec :=
  smul (1 / (vs.length : ℚ)) (vsum D vs)

/-- A matrix: a list of row vectors. -/
abbrev Mat := List Vec

/-- Outer product of two vectors. -/
def outer (x y : Vec) : Mat := x.map (fun xi => smul xi y)

/-- Pointwise matrix addition. -/
def madd (A B : Mat) : Mat := List.zipWith vadd A B

/-- The D-by-D zero matrix. -/
def zeroMat (D : ℕ) : Mat := List.replicate D (List.replicate D 0)

/-- Sum of a list of D-by-D matrices. -/
def msum (D : ℕ) (Ms : List Mat) : Mat := Ms.foldl madd (zeroMat D)

/-- Scalar multiple of a matrix. -/
def smulMat (a : ℚ) (A : Mat) : Mat := A.map (smul a)

/-- The records of `data` carrying label `k`. -/
def classRecords (data : Dataset) (k : ℕ) : Dataset :=
  data.filter (fun r => r.label == k)

/-- The distinct class labels of the data, in the fixed ascending order. -/
def sortedLabels (data : Dataset) : List ℕ :=
  ((data.map Record.label).dedup).mergeSort (fun i j => i ≤ j)

/-- The number K of distinct classes. -/
def numClasses (data : Dataset) : ℕ := (sortedLabels data).length

/-- The dimension of the discriminant space: min(K - 1, D). -/
def nComponents (data : Dataset) (D : ℕ) : ℕ := min (numClasses data - 1) D

/-- The mean feature vector of class `k`. -/
def classMean (D : ℕ) (data : Dataset) (k : ℕ) : Vec :=
  vmean D ((classRecords data k).map Record.features)

/-- Modelled from the spec: within-class scatter
S_w = sum over k of sum over x in class k of (x - mu_k)(x - mu_k)^T. -/
def withinScatter (D : ℕ) (data : Dataset) : Mat :=
  msum D ((sortedLabels data).map (fun k =>
    msum D ((classRecords data k).map (fun r =>
      outer (vsub r.features (classMean D data k))
            (vsub r.features (classMean D data k))))))

/-- Modelled from the spec: between-class scatter
S_b = sum over k of n_k (mu_k - mu)(mu_k - mu)^T. -/
def betweenScatter (D : ℕ) (data : Dataset) : Mat :=
  msum D ((sortedLabels data).map (fun k =>
    smulMat (((classRecords data k).length : ℚ))
      (outer (vsub (classMean D data k) (vmean D (data.map Record.features)))
             (vsub (classMean D data k) (vmean D (data.map Record.features))))))

/-- A pluggable generalized-eigenproblem backend, as in the spec's design
notes: given (S_w, S_b) it returns the (eigenvalue, eigenvector) pairs of
S_w⁻¹ S_b w = λ w. -/
abbrev EigenSolver := Mat → Mat → List (ℚ × Vec)

/-- Eigenpairs sorted by descending eigenvalue magnitude. -/
def sortEigen (ps : List (ℚ × Vec)) : List (ℚ × Vec) :=
  ps.mergeSort (fun p q => decide (|q.1| ≤ |p.1|))

/-- The eigenpairs the backend produces for the scatter matrices of `data`. -/
def fitPairs (solver : EigenSolver) (D : ℕ) (data : Dataset) : List (ℚ × Vec) :=
  solver (withinScatter D data) (betweenScatter D data)

/-- A fitted LDA model: the DiscriminantBasis, the global training mean, and
the per-class means (sorted by label), all produced by `fit`. -/
structure FittedModel where
  basis : List Vec
  globalMean : Vec
  classMeans : List (ℕ × Vec)

/-- Modelled from the spec: the fitting algorithm behind `LDA.fit` /
`LDA.fit_transform` (src/ML.py:47-48, implemented by the external library):
class statistics, scatter matrices, eigen-decomposition via the pluggable
`solver`, then the top min(K-1, D) eigenvectors by descending eigenvalue
magnitude as the DiscriminantBasis. -/
def fitModel (solver : EigenSolver) (D : ℕ) (data : Dataset) : FittedModel :=
  { basis := ((sortEigen (fitPairs solver D data)).take (nComponents data D)).map Prod.snd
    globalMean := vmean D (data.map Record.features)
    classMeans := (sortedLabels data).map (fun k => (k, classMean D data k)) }

/-- Modelled from the spec: `project` — DiscriminantBasis · (x - global_mean),
a deterministic affine-linear map. -/
def project (F : FittedModel) (x : Vec) : Vec :=
  F.basis.map (fun w => dot w (vsub x F.globalMean))

/-- Squared Euclidean distance. -/
def sqdist (x y : Vec) : ℚ := (List.zipWith (fun u v => (u - v) ^ 2) x y).sum

/-- Keep-first argmin over (label, distance) candidates: the current best is
replaced only on a strictly smaller distance, so ties keep the earlier
candidate. -/
def argminLowest (c : ℕ × ℚ) (cs : List (ℕ × ℚ)) : ℕ × ℚ :=
  cs.foldl (fun best p => if p.2 < best.2 then p else best) c

/-- Modelled from the spec: `classify` — nearest projected class centroid in
Euclidean distance, ties broken towards the lowest label; `none` plays the
role of `NotFittedError` on a model without class statistics. -/
def classify (F : FittedModel) (x : Vec) : Option ℕ :=
  match F.classMeans with
  | [] => none
  | c :: cs => some (argminLowest
      (c.1, sqdist (project F x) (project F c.2))
      (cs.map (fun p => (p.1, sqdist (project F x) (project F p.2))))).1

/-- Modelled from the spec: `Evaluator.score` / `LDA.score` (src/ML.py:55):
accuracy = (count of test records classified as their true label) divided by
the number of test records; the empty test set raises `EvaluationError`. -/
def score (F : FittedModel) (test : Dataset) : Except String ℚ :=
  if test.length = 0 then .error "EvaluationError"
  else .ok ((test.countP (fun r => classify F r.features == some r.label) : ℚ) /
            (test.length : ℚ))

/-- The last two base-10 digits of `m`, as a 2-character string. -/
def twoDigits (m : ℕ) : String :=
  String.mk [Char.ofNat (48 + (m / 10) % 10), Char.ofNat (48 + m % 10)]

/-- Fixed-precision rendering of a nonnegative rational with exactly two
digits after the decimal point — the 2-decimal format used by the print at
src/ML.py:55. -/
def formatFixed2 (q : ℚ) : String :=
  toString ((round (q * 100)).toNat / 100) ++ "." ++ twoDigits ((round (q * 100)).toNat)

/-- The report line printed at src/ML.py:55: the single accuracy value,
rendered with two decimal places. -/
def reportLine (F : FittedModel) (test : Dataset) : Except String String :=
  (score F test).map
    (fun q => "Accuracy of LDA classifier on test set: " ++ formatFixed2 q)

/-- The mutable model slot of the script (`LDA = LinearDiscriminantAnalysis()`
at src/ML.py:46): either unfitted or holding a fitted model. -/
structure LDAState where
  fitted : Option FittedModel

/-- The freshly constructed, unfitted model object. -/
def initLDA : LDAState := ⟨none⟩

/-- Modelled from the spec: `fit` replaces any prior fitted state entirely
with the model fitted on `data` (no incremental update). -/
def fitStep (solver : EigenSolver) (D : ℕ) (s : LDAState) (data : Dataset) :
    LDAState :=
  ⟨some (fitModel solver D data)⟩

/-- Modelled from the spec: `fit_transform` (src/ML.py:47) — fit on `data`,
returning the new state together with the projected training data. -/
def fitTransform (solver : EigenSolver) (D : ℕ) (s : LDAState) (data : Dataset) :
    LDAState × List Vec :=
  (fitStep solver D s data,
   data.map (fun r => project (fitModel solver D data) r.features))

/-- Claim C8: refitting replaces the model's prior fitted state entirely:
after `fit_transform` followed by `fit` (the script's sequence at
src/ML.py:47-48), and more generally after any second `fit`, the state —
hence all subsequent project/classify/score behavior — is exactly that of a
model fitted once, from scratch, on the last training data. -/
theorem refit_replaces_state (solver : EigenSolver) (D : ℕ)
    (s1 s2 : LDAState) (d0 d : Dataset) :
    (fitStep solver D ((fitTransform solver D s1 d0).1) d).fitted
      = some (fitModel solver D d) ∧
    fitStep solver D (fitStep solver D s1 d0) d = fitStep solver D s2 d ∧
    (∀ x, (fitStep solver D (fitStep solver D s1 d0) d).fitted.map
        (fun F => project F x)
      = (fitStep solver D initLDA d).fitted.map (fun F => project F x)) ∧
    (∀ x, (fitStep solver D (fitStep solver D s1 d0) d).fitted.map
        (fun F => classify F x)
      = (fitStep solver D initLDA d).fitted.map (fun F => classify F x)) ∧
    (∀ t, (fitStep solver D (fitStep solver D s1 d0) d).fitted.map
        (fun F => score F t)
      = (fitStep solver D initLDA d).fitted.map (fun F => score F t)) :=
  ⟨rfl, rfl, fun _ => rfl, fun _ => rfl, fun _ => rfl⟩

lemma sortEigen_length (ps : List (ℚ × Vec)) : (sortEigen ps).length = ps.length :=
  List.length_mergeSort _

lemma sortEigen_perm (ps : List (ℚ × Vec)) : (sortEigen ps).Perm ps :=
  List.mergeSort_perm _ _

lemma sortEigen_sorted (ps : List (ℚ × Vec)) :
    List.Pairwise (fun p q : ℚ × Vec => |q.1| ≤ |p.1|) (sortEigen ps) := by
  have htrans : ∀ a b c : ℚ × Vec, decide (|b.1| ≤ |a.1|) = true →
      decide (|c.1| ≤ |b.1|) = true → decide (|c.1| ≤ |a.1|) = true := by
    intro a b c hab hbc
    simp only [decide_eq_true_eq] at *
    exact le_trans hbc hab
  have htotal : ∀ a b : ℚ × Vec,
      (decide (|b.1| ≤ |a.1|) || decide (|a.1| ≤ |b.1|)) = true := by
    intro a b
    simp only [Bool.or_eq_true, decide_eq_true_eq]
    exact le_total _ _
  have h := List.sorted_mergeSort htrans htotal ps
  rw [sortEigen]
  exact List.Pairwise.imp (fun hab => by simpa using hab) h

/-- Claim C5: for every training set and pluggable eigen-backend returning D
eigenpairs, `fit` produces a DiscriminantBasis that is exactly the
eigenvectors of the backend's eigenpairs sorted by descending eigenvalue
magnitude and truncated to the top min(K-1, D). -/
theorem fit_basis_topk (solver : EigenSolver) (D : ℕ) (data : Dataset)
    (hsolver : (fitPairs solver D data).length = D) :
    (fitModel solver D data).basis =
      ((sortEigen (fitPairs solver D data)).take (nComponents data D)).map Prod.snd ∧
    (fitModel solver D data).basis.length = min (numClasses data - 1) D ∧
    List.Pairwise (fun p q : ℚ × Vec => |q.1| ≤ |p.1|)
      ((sortEigen (fitPairs solver D data)).take (nComponents data D)) ∧
    (∀ p ∈ (sortEigen (fitPairs solver D data)).take (nComponents data D),
      p ∈ fitPairs solver D data) := by
  refine ⟨rfl, ?_, ?_, ?_⟩
  · show (((sortEigen (fitPairs solver D data)).take (nComponents data D)).map
      Prod.snd).length = min (numClasses data - 1) D
    rw [List.length_map, List.length_take, sortEigen_length, hsolver, nComponents]
    omega
  · exact List.Pairwise.sublist (List.take_sublist _ _) (sortEigen_sorted _)
  · intro p hp
    exact (sortEigen_perm _).mem_iff.mp ((List.take_sublist _ _).mem hp)

/-- A concrete eigen-backend for witnesses: two fixed eigenpairs. -/
def wSolver : EigenSolver :=
  fun _ _ => [((2 : ℚ), ([1, 0] : Vec)), ((1 : ℚ), ([0, 1] : Vec))]

/-- A concrete 3-class, 2-feature training set for witnesses. -/
def wData : Dataset := [⟨[0, 0], 0⟩, ⟨[2, 0], 1⟩, ⟨[0, 2], 2⟩]

/-- Witness for C5 at a concrete input: the two-eigenpair backend `wSolver`
on the 3-class dataset `wData` with D = 2. -/
theorem fit_basis_topk_witness :
    (fitPairs wSolver 2 wData).length = 2 ∧
    ((fitModel wSolver 2 wData).basis =
      ((sortEigen (fitPairs wSolver 2 wData)).take (nComponents wData 2)).map Prod.snd ∧
    (fitModel wSolver 2 wData).basis.length = min (numClasses wData - 1) 2 ∧
    List.Pairwise (fun p q : ℚ × Vec => |q.1| ≤ |p.1|)
      ((sortEigen (fitPairs wSolver 2 wData)).take (nComponents wData 2)) ∧
    (∀ p ∈ (sortEigen (fitPairs wSolver 2 wData)).take (nComponents wData 2),
      p ∈ fitPairs wSolver 2 wData)) :=
  ⟨rfl, fit_basis_topk wSolver 2 wData rfl⟩

lemma argminLowest_cons (c q : ℕ × ℚ) (cs : List (ℕ × ℚ)) :
    argminLowest c (q :: cs) = argminLowest (if q.2 < c.2 then q else c) cs := rfl

lemma argminLowest_spec (cs : List (ℕ × ℚ)) : ∀ c : ℕ × ℚ,
    List.Pairwise (fun p q : ℕ × ℚ => p.1 < q.1) (c :: cs) →
    (argminLowest c cs = c ∨
      (argminLowest c cs ∈ cs ∧ (argminLowest c cs).2 < c.2)) ∧
    (∀ p ∈ c :: cs, (argminLowest c cs).2 ≤ p.2) ∧
    (∀ p ∈ c :: cs, p.2 = (argminLowest c cs).2 → (argminLowest c cs).1 ≤ p.1) := by
  induction cs with
  | nil =>
    intro c _
    refine ⟨Or.inl rfl, ?_, ?_⟩
    · intro p hp
      rw [List.mem_singleton] at hp
      subst hp
      exact le_rfl
    · intro p hp _
      rw [List.mem_singleton] at hp
      subst hp
      exact le_rfl
  | cons q cs ih =>
    intro c h
    rw [List.pairwise_cons] at h
    obtain ⟨hc, hqcs⟩ := h
    by_cases hq : q.2 < c.2
    · have hmain := ih q hqcs
      obtain ⟨hdisj, hmin, hties⟩ := hmain
      rw [argminLowest_cons, if_pos hq]
      refine ⟨?_, ?_, ?_⟩
      · right
        rcases hdisj with h1 | ⟨h1, h2⟩
        · rw [h1]
          exact ⟨List.mem_cons_self _ _, hq⟩
        · exact ⟨List.mem_cons_of_mem _ h1, lt_trans h2 hq⟩
      · intro p hp
        rcases List.mem_cons.mp hp with h1 | h1
        · subst h1
          exact le_of_lt (lt_of_le_of_lt (hmin q (List.mem_cons_self _ _)) hq)
        · exact hmin p h1
      · intro p hp hpe
        rcases List.mem_cons.mp hp with h1 | h1
        · subst h1
          exact absurd (hpe ▸ lt_of_le_of_lt (hmin q (List.mem_cons_self _ _)) hq)
            (lt_irrefl _)
        · exact hties p h1 hpe
    · push_neg at hq
      have hpair : List.Pairwise (fun p q : ℕ × ℚ => p.1 < q.1) (c :: cs) := by
        rw [List.pairwise_cons]
        exact ⟨fun b hb => hc b (List.mem_cons_of_mem _ hb),
          (List.pairwise_cons.mp hqcs).2⟩
      have hmain := ih c hpair
      obtain ⟨hdisj, hmin, hties⟩ := hmain
      rw [argminLowest_cons, if_neg (not_lt.mpr hq)]
      refine ⟨?_, ?_, ?_⟩
      · rcases hdisj with h1 | ⟨h1, h2⟩
        · exact Or.inl h1
        · exact Or.inr ⟨List.mem_cons_of_mem _ h1, h2⟩
      · intro p hp
        rcases List.mem_cons.mp hp with h1 | h1
        · subst h1
          exact hmin p (List.mem_cons_self _ _)
        · rcases List.mem_cons.mp h1 with h2 | h2
          · subst h2
            exact le_trans (hmin c (List.mem_cons_self _ _)) hq
          · exact hmin p (List.mem_cons_of_mem _ h2)
      · intro p hp hpe
        rcases List.mem_cons.mp hp with h1 | h1
        · subst h1
          exact hties p (List.mem_cons_self _ _) hpe
        · rcases List.mem_cons.mp h1 with h2 | h2
          · subst h2
            rcases hdisj with h3 | ⟨_, h4⟩
            · rw [h3]
              exact le_of_lt (hc p (List.mem_cons_self _ _))
            · exact absurd h4 (not_lt.mpr (hpe ▸ hq))
          · exact hties p (List.mem_cons_of_mem _ h2) hpe

lemma classify_eq (F : FittedModel) (x : Vec) (cm : ℕ × Vec)
    (cms : List (ℕ × Vec)) (hcm : F.classMeans = cm :: cms) :
    classify F x = some (argminLowest
      (cm.1, sqdist (project F x) (project F cm.2))
      (cms.map (fun p => (p.1, sqdist (project F x) (project F p.2))))).1 := by
  simp only [classify, hcm]

/-- Claim C3: for every fitted model (non-empty class statistics, labels in
the fixed ascending order) and every input, `classify` returns a label whose
projected class centroid is closest to the projected input in Euclidean
distance, and on ties the lowest such label. -/
theorem classify_nearest_centroid (F : FittedModel) (x : Vec)
    (hne : F.classMeans ≠ [])
    (hsorted : List.Pairwise (fun p q : ℕ × Vec => p.1 < q.1) F.classMeans) :
    ∃ c mc, classify F x = some c ∧ (c, mc) ∈ F.classMeans ∧
      (∀ p ∈ F.classMeans,
        sqdist (project F x) (project F mc) ≤ sqdist (project F x) (project F p.2)) ∧
      (∀ p ∈ F.classMeans,
        sqdist (project F x) (project F p.2) = sqdist (project F x) (project F mc) →
          c ≤ p.1) := by
  obtain ⟨cm, cms, hcm⟩ := List.exists_cons_of_ne_nil hne
  have hclassify := classify_eq F x cm cms hcm
  have hLmap : (cm.1, sqdist (project F x) (project F cm.2)) ::
      cms.map (fun p => (p.1, sqdist (project F x) (project F p.2)))
      = (cm :: cms).map (fun p => (p.1, sqdist (project F x) (project F p.2))) := by
    rw [List.map_cons]
  have hpairL : List.Pairwise (fun p q : ℕ × ℚ => p.1 < q.1)
      ((cm.1, sqdist (project F x) (project F cm.2)) ::
        cms.map (fun p => (p.1, sqdist (project F x) (project F p.2)))) := by
    rw [hLmap]
    exact List.Pairwise.map _ (fun a b hab => hab) (hcm ▸ hsorted)
  obtain ⟨hdisj, hmin, hties⟩ := argminLowest_spec
    (cms.map (fun p => (p.1, sqdist (project F x) (project F p.2))))
    (cm.1, sqdist (project F x) (project F cm.2)) hpairL
  have hrmem : argminLowest (cm.1, sqdist (project F x) (project F cm.2))
      (cms.map (fun p => (p.1, sqdist (project F x) (project F p.2))))
      ∈ (cm :: cms).map (fun p => (p.1, sqdist (project F x) (project F p.2))) := by
    rw [← hLmap]
    rcases hdisj with h1 | ⟨h1, _⟩
    · rw [h1]
      exact List.mem_cons_self _ _
    · exact List.mem_cons_of_mem _ h1
  obtain ⟨p0, hp0mem, hp0eq⟩ := List.mem_map.mp hrmem
  refine ⟨p0.1, p0.2, ?_, ?_, ?_, ?_⟩
  · rw [hclassify, ← hp0eq]
  · rw [hcm]
    exact hp0mem
  · intro p hp
    rw [hcm] at hp
    have hfp : (p.1, sqdist (project F x) (project F p.2))
        ∈ (cm :: cms).map (fun p => (p.1, sqdist (project F x) (project F p.2))) :=
      List.mem_map_of_mem _ hp
    rw [← hLmap] at hfp
    have := hmin _ hfp
    rw [← hp0eq] at this
    exact this
  · intro p hp hpe
    rw [hcm] at hp
    have hfp : (p.1, sqdist (project F x) (project F p.2))
        ∈ (cm :: cms).map (fun p => (p.1, sqdist (project F x) (project F p.2))) :=
      List.mem_map_of_mem _ hp
    rw [← hLmap] at hfp
    have h2 := hties _ hfp
    rw [← hp0eq] at h2
    exact h2 hpe

/-- A concrete fitted model for witnesses: one discriminant direction, two
classes with centroids 0 and 4 on the discriminant axis. -/
def wModel : FittedModel :=
  { basis := [[1]], globalMean := [0], classMeans := [(0, [0]), (1, [4])] }

/-- Witness for C3 at a concrete input: the fitted model `wModel` and the
input vector [1]. -/
theorem classify_nearest_centroid_witness :
    wModel.classMeans ≠ [] ∧
    List.Pairwise (fun p q : ℕ × Vec => p.1 < q.1) wModel.classMeans ∧
    (∃ c mc, classify wModel [1] = some c ∧ (c, mc) ∈ wModel.classMeans ∧
      (∀ p ∈ wModel.classMeans,
        sqdist (project wModel [1]) (project wModel mc)
          ≤ sqdist (project wModel [1]) (project wModel p.2)) ∧
      (∀ p ∈ wModel.classMeans,
        sqdist (project wModel [1]) (project wModel p.2)
            = sqdist (project wModel [1]) (project wModel mc) →
          c ≤ p.1)) :=
  ⟨by decide, by decide,
   classify_nearest_centroid wModel [1] (by decide) (by decide)⟩

/-- Claim C4: `score` returns exactly (number of test records whose classify
result equals their true label) divided by the number of test records, a
value in [0,1]; on the empty test set it returns `EvaluationError` and never
a number. -/
theorem score_accuracy (F : FittedModel) (test : Dataset) :
    (test = [] → score F test = .error "EvaluationError") ∧
    (test ≠ [] →
      score F test = .ok ((test.countP
          (fun r => classify F r.features == some r.label) : ℚ) /
        (test.length : ℚ)) ∧
      ∃ q, score F test = .ok q ∧ 0 ≤ q ∧ q ≤ 1) := by
  constructor
  · intro h
    subst h
    rfl
  · intro h
    have hlen : test.length ≠ 0 := fun hc => h (List.length_eq_zero.mp hc)
    have hpos : (0 : ℚ) < (test.length : ℚ) := by
      exact_mod_cast Nat.pos_of_ne_zero hlen
    have hok : score F test = .ok ((test.countP
        (fun r => classify F r.features == some r.label) : ℚ) /
        (test.length : ℚ)) := by
      rw [score, if_neg hlen]
    refine ⟨hok, _, hok, ?_, ?_⟩
    · exact div_nonneg (Nat.cast_nonneg _) (le_of_lt hpos)
    · rw [div_le_one hpos]
      exact_mod_cast List.countP_le_length _

/-- Witness for C4 at a concrete input: the model `wModel` on the singleton
test set [([0], 0)], whose accuracy is defined and lies in [0,1]. -/
theorem score_accuracy_witness :
    (([⟨[0], 0⟩] : Dataset) ≠ []) ∧
    (∃ q, score wModel [⟨[0], 0⟩] = .ok q ∧ 0 ≤ q ∧ q ≤ 1) :=
  ⟨by simp, ((score_accuracy wModel [⟨[0], 0⟩]).2 (by simp)).2⟩

/-- A concrete fitted model with non-zero global mean, for the projection
claims: one discriminant direction [1], global mean [1]. -/
def cModel : FittedModel :=
  { basis := [[1]], globalMean := [1], classMeans := [(0, [0]), (1, [2])] }

/-- Counterexample to C7 as stated: with scalars a = b = 0 and the (correctly
1-dimensional) vectors x = y = [0], `project(a·x + b·y)` is [-1] while
`a·project(x) + b·project(y)` is [0] — the map is affine, not linear, because
it subtracts the global mean, so the discrepancy (here exactly 1) is not a
numeric-tolerance effect. -/
theorem projection_linearity_counterexample :
    project cModel (vadd (smul 0 [0]) (smul 0 [0])) ≠
      vadd (smul 0 (project cModel [0])) (smul 0 (project cModel [0])) := by
  simp [project, cModel, vadd, smul, vsub, dot]

lemma vadd_cons (u v : ℚ) (ut vt : Vec) :
    vadd (u :: ut) (v :: vt) = (u + v) :: vadd ut vt := rfl

lemma vsub_cons (u v : ℚ) (ut vt : Vec) :
    vsub (u :: ut) (v :: vt) = (u - v) :: vsub ut vt := rfl

lemma smul_cons (a u : ℚ) (ut : Vec) :
    smul a (u :: ut) = (a * u) :: smul a ut := rfl

lemma dot_cons (wi vi : ℚ) (wt vt : Vec) :
    dot (wi :: wt) (vi :: vt) = wi * vi + dot wt vt := by
  simp [dot]

lemma dot_affine (a b : ℚ) (hab : a + b = 1) :
    ∀ (x w y m : Vec), x.length = y.length → y.length = m.length →
    dot w (vsub (vadd (smul a x) (smul b y)) m)
      = a * dot w (vsub x m) + b * dot w (vsub y m) := by
  intro x
  induction x with
  | nil =>
    intro w y m hxy hym
    have hy : y = [] := List.length_eq_zero.mp hxy.symm
    have hm : m = [] := List.length_eq_zero.mp (hy ▸ hym).symm
    subst hy
    subst hm
    simp [dot, vsub, vadd, smul]
  | cons xi xt ih =>
    intro w y m hxy hym
    cases y with
    | nil => simp at hxy
    | cons yi yt =>
      cases m with
      | nil => simp at hym
      | cons mi mt =>
        cases w with
        | nil => simp [dot]
        | cons wi wt =>
          have hxy' : xt.length = yt.length := by simpa using hxy
          have hym' : yt.length = mt.length := by simpa using hym
          have ihh := ih wt yt mt hxy' hym'
          rw [smul_cons, smul_cons, vadd_cons, vsub_cons, dot_cons,
            vsub_cons, dot_cons, vsub_cons, dot_cons]
          linear_combination (wi * mi) * hab + ihh

/-- Claim C7 (amended): `project` is the deterministic affine map
x ↦ Basis · (x - global_mean); the linear-combination identity
project(a·x + b·y) = a·project(x) + b·project(y) holds exactly (no tolerance
needed) for affine combinations, i.e. whenever a + b = 1, for vectors of the
correct dimension. -/
theorem projection_affine (F : FittedModel) (a b : ℚ) (x y : Vec)
    (hab : a + b = 1) (hxy : x.length = y.length)
    (hym : y.length = F.globalMean.length) :
    project F (vadd (smul a x) (smul b y))
      = vadd (smul a (project F x)) (smul b (project F y)) := by
  have key : ∀ bs : List Vec,
      bs.map (fun w => dot w (vsub (vadd (smul a x) (smul b y)) F.globalMean))
        = vadd (smul a (bs.map (fun w => dot w (vsub x F.globalMean))))
               (smul b (bs.map (fun w => dot w (vsub y F.globalMean)))) := by
    intro bs
    induction bs with
    | nil => rfl
    | cons w bs ih =>
      simp only [List.map_cons]
      rw [smul_cons, smul_cons, vadd_cons,
        dot_affine a b hab x w y F.globalMean hxy hym, ih]
  simp only [project]
  exact key F.basis

/-- Witness for the amended C7 at a concrete input: the affine combination
with a = b = 1/2 of [0] and [2] under `cModel`. -/
theorem projection_affine_witness :
    ((1 : ℚ)/2 + 1/2 = 1) ∧
    (([0] : Vec).length = ([2] : Vec).length) ∧
    (([2] : Vec).length = cModel.globalMean.length) ∧
    project cModel (vadd (smul (1/2) [0]) (smul (1/2) [2]))
      = vadd (smul (1/2) (project cModel [0])) (smul (1/2) (project cModel [2])) :=
  ⟨by norm_num, rfl, rfl,
   projection_affine cModel (1/2) (1/2) [0] [2] (by norm_num) rfl rfl⟩

lemma twoDigits_length (m : ℕ) : (twoDigits m).length = 2 := rfl

/-- Claim C9: on every non-empty test set the reported metric is the single
accuracy value returned by `score`, printed as a fixed-precision number whose
fractional part has exactly 2 decimal digits (the 2-decimal format of the
print at src/ML.py:55). -/
theorem report_fixed_two_decimals (F : FittedModel) (test : Dataset)
    (hne : test ≠ []) :
    ∃ q, score F test = .ok q ∧
      reportLine F test = .ok ("Accuracy of LDA classifier on test set: "
        ++ (toString ((round (q * 100)).toNat / 100) ++ "."
            ++ twoDigits ((round (q * 100)).toNat))) ∧
      (twoDigits ((round (q * 100)).toNat)).length = 2 := by
  have hlen : test.length ≠ 0 := fun hc => hne (List.length_eq_zero.mp hc)
  have hok : score F test = .ok ((test.countP
      (fun r => classify F r.features == some r.label) : ℚ) /
      (test.length : ℚ)) := by
    rw [score, if_neg hlen]
  refine ⟨_, hok, ?_, twoDigits_length _⟩
  rw [reportLine, hok]
  rfl

/-- Witness for C9 at a concrete input: the model `wModel` on the singleton
test set [([0], 0)]. -/
theorem report_fixed_two_decimals_witness :
    (([⟨[0], 0⟩] : Dataset) ≠ []) ∧
    ∃ q, score wModel [⟨[0], 0⟩] = .ok q ∧
      reportLine wModel [⟨[0], 0⟩] = .ok ("Accuracy of LDA classifier on test set: "
        ++ (toString ((round (q * 100)).toNat / 100) ++ "."
            ++ twoDigits ((round (q * 100)).toNat))) ∧
      (twoDigits ((round (q * 100)).toNat)).length = 2 :=
  ⟨by simp, report_fixed_two_decimals wModel [⟨[0], 0⟩] (by simp)⟩

lemma fit_basis_length (solver : EigenSolver) (D : ℕ) (data : Dataset)
    (hsolver : (fitPairs solver D data).length = D) :
    (fitModel solver D data).basis.length = nComponents data D := by
  show (((sortEigen (fitPairs solver D data)).take (nComponents data D)).map
    Prod.snd).length = nComponents data D
  rw [List.length_map, List.length_take, sortEigen_length, hsolver, nComponents]
  omega

lemma isSome_getElem_one (l : Vec) : (l[1]?).isSome ↔ 1 < l.length := by
  constructor
  · intro h
    by_contra hn
    rw [List.getElem?_eq_none (by omega)] at h
    simp at h
  · intro h
    rw [List.getElem?_eq_getElem h]
    rfl

/-- Claim C10: the visualization step reads the second discriminant
component (column index 1) of the projected data, so it is in bounds exactly
when the fitted projection has at least two components — that is, when
min(K-1, D) ≥ 2, equivalently at least 3 distinct classes (and D ≥ 2) — and
with exactly 2 classes that column access is out of bounds. -/
theorem plot_needs_two_components (solver : EigenSolver) (D : ℕ) (data : Dataset)
    (hsolver : (fitPairs solver D data).length = D) :
    (∀ x : Vec, ((project (fitModel solver D data) x)[1]?).isSome
        ↔ 2 ≤ nComponents data D) ∧
    (2 ≤ nComponents data D ↔ 3 ≤ numClasses data ∧ 2 ≤ D) ∧
    (numClasses data = 2 →
      ∀ x : Vec, (project (fitModel solver D data) x)[1]? = none) := by
  have hplen : ∀ x : Vec,
      (project (fitModel solver D data) x).length = nComponents data D := by
    intro x
    rw [project, List.length_map, fit_basis_length solver D data hsolver]
  refine ⟨?_, ?_, ?_⟩
  · intro x
    rw [isSome_getElem_one, hplen x]
    omega
  · rw [nComponents, numClasses]
    omega
  · intro hK x
    apply List.getElem?_eq_none
    rw [hplen x, nComponents, hK]
    omega

/-- A concrete 2-class, 2-feature training set for the visualization
witness. -/
def wData2 : Dataset := [⟨[0, 0], 0⟩, ⟨[1, 1], 1⟩]

/-- Witness for C10 at a concrete input: `wSolver` on the 2-class dataset
`wData2` with D = 2, where the column-1 access is out of bounds. -/
theorem plot_needs_two_components_witness :
    (fitPairs wSolver 2 wData2).length = 2 ∧
    ((∀ x : Vec, ((project (fitModel wSolver 2 wData2) x)[1]?).isSome
        ↔ 2 ≤ nComponents wData2 2) ∧
    (2 ≤ nComponents wData2 2 ↔ 3 ≤ numClasses wData2 ∧ 2 ≤ 2) ∧
    (numClasses wData2 = 2 →
      ∀ x : Vec, (project (fitModel wSolver 2 wData2) x)[1]? = none)) :=
  ⟨rfl, plot_needs_two_components wSolver 2 wData2 rfl⟩
